import Mathlib

/-!
# mini-shell (msh): a shallow embedding of `src/main.c`

The development embeds the command pipeline of `main.c` (tokenizer with
special-variable substitution, builtin dispatch, process launch and the
`exit_status` / `msh_pid` globals) and proves properties of it.

Conventions of the embedding:

* a C string is the list of its characters before the terminating NUL;
* a NULL-terminated `char **` is, once read back, the list of its entries
  before the first NULL; the token buffer built by `msh_split_line` itself is
  modelled cell by cell, with its capacity, so that every store can be checked
  against the capacity;
* the globals `exit_status`, `msh_pid`, the working directory and the text
  written to the standard streams are fields of an explicit `Shell` value;
* what the operating system answers (environment lookup, `chdir`, `fork`,
  `waitpid`) is supplied by an explicit `OS` value, one per command.
-/

namespace Msh

/-! ## Constants and tables of `main.c` -/

/-- A C string: its characters before the terminating NUL. -/
abbrev CStr := List Char

/-- The macro MSH_TOK_BUFSIZE of `main.c`. -/
def MSH_TOK_BUFSIZE : Nat := 64

/-- The macro MSH_TOK_DELIM of `main.c`: space, tab, carriage return, newline, bell. -/
def MSH_TOK_DELIM : CStr := [' ', '\t', '\r', '\n', '\x07']

/-- The macro MSH_EXS_BUFSIZE of `main.c`. -/
def MSH_EXS_BUFSIZE : Nat := 4

/-- The macro MSH_PID_BUFSIZE of `main.c`. -/
def MSH_PID_BUFSIZE : Nat := 8

/-- The value of EXIT_SUCCESS in `stdlib.h`. -/
def EXIT_SUCCESS : Int := 0

/-- The value of EXIT_FAILURE in `stdlib.h`. -/
def EXIT_FAILURE : Int := 1

/-- Text written to a standard stream, or a system call made, by the shell process. -/
inductive Event where
  | stdout (text : String)
  | stderr (text : String)
  | perror (tag : String)
  | chdir (path : Option CStr)
  | fork (argv : List CStr)
  deriving DecidableEq

/-- The process-wide state: the globals `exit_status` and `msh_pid`, the working
directory of the process and the trace of its observable actions. -/
structure Shell where
  exit_status : Int
  msh_pid : Int
  cwd : CStr
  trace : List Event
  deriving DecidableEq

/-- The outcome of `fork()` seen by the parent: an error (a negative pid), or a
child together with the status words that the successive `waitpid` calls on
that child store. -/
inductive ForkResult where
  | error
  | child (statuses : List Int)
  deriving DecidableEq

/-- The answers of the operating system during one command.
`home` is the result of `getenv("HOME")` (none for NULL). `chdir cwd path` is
the working directory after a successful `chdir(path)` issued from `cwd`, or
none when the call returns non-zero; a NULL or unreadable path is `none`.
`path_indeterminate` is the string that the uninitialised local `path` of
`msh_cd` happens to point to when it is read without having been assigned. -/
structure OS where
  home : Option CStr
  chdir : CStr → Option CStr → Option CStr
  path_indeterminate : Option CStr
  fork : ForkResult

/-- What a handler hands back: the state it leaves and the value it returns,
none when it never returns (the shell stays blocked in `waitpid`). -/
structure Ret where
  st : Shell
  ret : Option Int
  deriving DecidableEq

/-! ## Special variables -/

/-- The table `keywords` of `main.c`. -/
def keywords : List CStr := [['$', '?'], ['$', '$']]

/-- The function `msh_num_keywords`. -/
def msh_num_keywords : Nat := keywords.length

/-- The conversion `%d` of `sprintf`: the decimal text of an `int`. -/
def sprintf_d (v : Int) : CStr :=
  if v < 0 then '-' :: Nat.toDigits 10 v.natAbs else Nat.toDigits 10 v.toNat

/-- The function `sub_exit_status`: the text `sprintf` formats from `exit_status`. -/
def sub_exit_status (s : Shell) : CStr := sprintf_d s.exit_status

/-- The function `sub_msh_pid`: the text `sprintf` formats from `msh_pid`. -/
def sub_msh_pid (s : Shell) : CStr := sprintf_d s.msh_pid

/-- The table `msh_sub` of `main.c`. -/
def msh_sub : List (Shell → CStr) := [sub_exit_status, sub_msh_pid]

/-- The `for` loop at the head of the `while` body of `msh_split_line`: every
index of `keywords` is visited, in order and without `break`; the current
`token` is compared with the keyword and replaced on equality. -/
def msh_sub_loop (s : Shell) : List (CStr × (Shell → CStr)) → CStr → CStr
  | [], token => token
  | (kw, f) :: rest, token =>
    msh_sub_loop s rest (if token = kw then f s else token)

/-! ## Tokenizer -/

/-- Membership in the delimiter set MSH_TOK_DELIM. -/
def isDelim (c : Char) : Bool := MSH_TOK_DELIM.contains c

/-- The call `strtok(_, MSH_TOK_DELIM)` at scan position `s`: skip the leading
delimiters; at the end of the string there is no token; otherwise the token
runs up to the next delimiter, which is overwritten by NUL, and the scan
position saved for the next call is just after that delimiter (or the end of
the string when the token reaches it). -/
def strtok (s : CStr) : Option (CStr × CStr) :=
  match s.dropWhile isDelim with
  | [] => none
  | c :: cs =>
    some ((c :: cs).takeWhile (fun x => !isDelim x),
          ((c :: cs).dropWhile (fun x => !isDelim x)).tail)

/-- A slot of the `char **` buffer `tokens`. -/
inductive Cell where
  | uninit
  | null
  | ptr (s : CStr)
  deriving DecidableEq

/-- The locals `tokens`, `bufsize` and `position` of `msh_split_line`, with the
record of every store `tokens[i] = _` as the pair of the index `i` and of the
capacity of the buffer at that moment. The two `int` counters are natural
numbers here: they only grow, by 1 and by 64, and stay below `2^31` for every
line of fewer than `2^31 - 64` tokens. -/
structure TokBuf where
  cells : List Cell
  bufsize : Nat
  position : Nat
  stores : List (Nat × Nat)
  deriving DecidableEq

/-- The `while (token != NULL)` loop of `msh_split_line` followed by the store
of the terminator. The first argument bounds the number of `strtok` calls. -/
def msh_split_loop (s : Shell) : Nat → CStr → TokBuf → Option TokBuf
  | 0, _, _ => none
  | fuel + 1, scan, b =>
    match strtok scan with
    | none =>
      some { b with cells := b.cells.set b.position Cell.null,
                    stores := b.stores ++ [(b.position, b.bufsize)] }
    | some (token, rest) =>
      let token := msh_sub_loop s (keywords.zip msh_sub) token
      let cells := b.cells.set b.position (Cell.ptr token)
      let stores := b.stores ++ [(b.position, b.bufsize)]
      let position := b.position + 1
      if position ≥ b.bufsize then
        msh_split_loop s fuel rest
          { cells := cells ++ List.replicate MSH_TOK_BUFSIZE Cell.uninit,
            bufsize := b.bufsize + MSH_TOK_BUFSIZE,
            position := position, stores := stores }
      else
        msh_split_loop s fuel rest
          { cells := cells, bufsize := b.bufsize, position := position, stores := stores }

/-- The function `msh_split_line`, allocation succeeding. Each `strtok` call
that returns a token consumes at least one character of the line, so
`line.length + 1` calls are enough. -/
def msh_split_line (s : Shell) (line : CStr) : Option TokBuf :=
  msh_split_loop s (line.length + 1) line
    { cells := List.replicate MSH_TOK_BUFSIZE Cell.uninit,
      bufsize := MSH_TOK_BUFSIZE, position := 0, stores := [] }

/-- Reading a `char **` as `msh_execute` and the builtins do: the entries
before the first NULL. -/
def read_args : List Cell → List CStr
  | Cell.ptr s :: rest => s :: read_args rest
  | _ => []

/-- The arguments that `msh_loop` passes on from `msh_split_line`. -/
def split_args (s : Shell) (line : CStr) : List CStr :=
  match msh_split_line s line with
  | some b => read_args b.cells
  | none => []

/-- The maximal non-empty runs of non-delimiter characters of a line, from left
to right: the line is cut at every delimiter and the empty pieces are dropped.
This is the tokenization the specification describes. -/
def maximal_runs (line : CStr) : List CStr :=
  (line.splitOnP isDelim).filter (fun t => !t.isEmpty)

/-! ## Builtin commands -/

/-- The table `builtin_str` of `main.c`. -/
def builtin_str : List CStr :=
  [['c', 'd'], ['h', 'e', 'l', 'p'], ['e', 'x', 'i', 't']]

/-- The function `msh_num_builtins`. -/
def msh_num_builtins : Nat := builtin_str.length

/-- Appending one observable action to the trace of a state. -/
def Shell.emit (s : Shell) (e : Event) : Shell := { s with trace := s.trace ++ [e] }

/-- The function `msh_cd`. `args[1] == NULL` holds when the argument list stops
after the command name, `args[2] != NULL` when there is a third entry. In the
branch of the third entry the local `path` is not assigned, and the `chdir`
call that follows the `if` chain reads it all the same. -/
def msh_cd (os : OS) (args : List CStr) (s : Shell) : Ret :=
  let (path, s1) :=
    match args.get? 1 with
    | none => (os.home, s)
    | some a1 =>
      match args.get? 2 with
      | some _ =>
        (os.path_indeterminate,
          { s.emit (Event.stderr "msh: too many arguments to \"cd\"\n") with
            exit_status := EXIT_FAILURE })
      | none => (some a1, s)
  let s2 := s1.emit (Event.chdir path)
  match os.chdir s2.cwd path with
  | none => ⟨s2.emit (Event.perror "msh"), some 1⟩
  | some dir => ⟨{ s2 with cwd := dir, exit_status := EXIT_SUCCESS }, some 1⟩

/-- The function `msh_help`. -/
def msh_help (_os : OS) (_args : List CStr) (s : Shell) : Ret :=
  let head := [Event.stdout "Mini-Shell based on Stephen Brennan's LSH\n",
    Event.stdout "Usage: <command> <arguments> \n",
    Event.stdout "The following are built in:\n",
    Event.stdout "Builtin commands: \n"]
  let names := builtin_str.map (fun n => Event.stdout ("  " ++ String.mk n ++ "\n"))
  let vars := keywords.map (fun k => Event.stdout ("  " ++ String.mk k ++ "\n"))
  let foot := [Event.stdout "Use the 'man' command for information on external commands.\n"]
  ⟨{ s with trace := s.trace ++ head ++ names ++ [Event.stdout "Special variables: \n"]
                      ++ vars ++ foot,
            exit_status := EXIT_SUCCESS }, some 1⟩

/-- The function `msh_exit`. -/
def msh_exit (_os : OS) (_args : List CStr) (s : Shell) : Ret := ⟨s, some 0⟩

/-- The table `builtin_fun` of `main.c`. -/
def builtin_fun : List (OS → List CStr → Shell → Ret) := [msh_cd, msh_help, msh_exit]

/-! ## Process launch -/

/-- Reinterpreting the low byte of a value as a `signed char`. -/
def toSignedChar (x : Int) : Int :=
  if x % 256 < 128 then x % 256 else x % 256 - 256

/-- The macro WTERMSIG of `sys/wait.h` (glibc): `status & 0x7f`. -/
def WTERMSIG (status : Int) : Int := status % 128

/-- The macro WEXITSTATUS of `sys/wait.h` (glibc): `(status & 0xff00) >> 8`. -/
def WEXITSTATUS (status : Int) : Int := (status / 256) % 256

/-- The macro WIFEXITED of `sys/wait.h` (glibc): `WTERMSIG(status) == 0`. -/
def WIFEXITED (status : Int) : Bool := decide (WTERMSIG status = 0)

/-- The macro WIFSIGNALED of `sys/wait.h` (glibc):
`((signed char) ((status & 0x7f) + 1) >> 1) > 0`. -/
def WIFSIGNALED (status : Int) : Bool :=
  decide (toSignedChar (status % 128 + 1) / 2 > 0)

/-- The status word the kernel forms, as the macro W_EXITCODE of `sys/wait.h`
(glibc) does, `(ret & 0xff) << 8 | (sig & 0x7f)`: the one of a child that
called `exit(ret)` (with `sig = 0`) or was killed by signal `sig`. -/
def W_EXITCODE (ret sig : Int) : Int := ret % 256 * 256 + sig % 128

/-- The `do ... while (!WIFEXITED(status) && !WIFSIGNALED(status))` loop of
`msh_launch` over the status words the successive `waitpid` calls store (each
call is taken to store one): the status the loop ends with, or none when no
call ever reports a termination. -/
def wait_loop : List Int → Option Int
  | [] => none
  | status :: later =>
    if !WIFEXITED status && !WIFSIGNALED status then wait_loop later else some status

/-- The branch `pid == 0` of `msh_launch`, run by the child: the exit code of
the child, given what `execvp` does (none: it fails and returns -1, and the
child calls `exit(EXIT_FAILURE)`; some c: the program runs and exits with c). -/
def msh_launch_child (execvp : Option Int) : Int :=
  match execvp with
  | none => EXIT_FAILURE
  | some c => c

/-- The function `msh_launch`, as run by the shell process. -/
def msh_launch (os : OS) (args : List CStr) (s : Shell) : Ret :=
  let s1 := s.emit (Event.fork args)
  match os.fork with
  | ForkResult.error => ⟨s1.emit (Event.perror "msh"), some 1⟩
  | ForkResult.child statuses =>
    match wait_loop statuses with
    | none => ⟨s1, none⟩
    | some status => ⟨{ s1 with exit_status := WEXITSTATUS status }, some 1⟩

/-! ## Dispatch and the shell loop -/

/-- The `for` loop of `msh_execute` over the builtin tables, from index `i` on,
followed by the final `return msh_launch(args)`. -/
def msh_execute_loop (os : OS) (args : List CStr) (arg0 : CStr) (s : Shell) :
    List (CStr × (OS → List CStr → Shell → Ret)) → Ret
  | [] => msh_launch os args s
  | (name, handler) :: rest =>
    if arg0 = name then handler os args s else msh_execute_loop os args arg0 s rest

/-- The function `msh_execute`. -/
def msh_execute (os : OS) (args : List CStr) (s : Shell) : Ret :=
  match args with
  | [] => ⟨s, some 1⟩
  | arg0 :: _ => msh_execute_loop os args arg0 s (builtin_str.zip builtin_fun)

/-- The state in which `main` enters `msh_loop`: `exit_status` holds its
initial value 0 and `msh_pid` the result of `getpid()`. The banner printed by
`main` is left out of the trace. -/
def startup (pid : Int) (cwd : CStr) : Shell :=
  { exit_status := 0, msh_pid := pid, cwd := cwd, trace := [] }

/-- The function `msh_loop` over the lines that `msh_read_line` returns, each
with the answers of the operating system during its command. The loop goes on
while `msh_execute` returns non-zero; at the end of the input `msh_read_line`
ends the process. The prompt is left out of the trace. -/
def msh_loop : List (OS × CStr) → Shell → Shell
  | [], s => s
  | (os, line) :: rest, s =>
    let r := msh_execute os (split_args s line) s
    match r.ret with
    | some status => if status ≠ 0 then msh_loop rest r.st else r.st
    | none => r.st

/-- The states the shell can be in between two commands: the startup state, and
the state any dispatched command leaves. -/
inductive Reachable : Shell → Prop where
  | startup (pid : Int) (cwd : CStr) : Reachable (startup pid cwd)
  | dispatch (os : OS) (args : List CStr) (s : Shell) :
      Reachable s → Reachable (msh_execute os args s).st

/-- The number of `fork()` calls recorded in a trace. -/
def forks (t : List Event) : Nat :=
  (t.filter (fun e => match e with | Event.fork _ => true | _ => false)).length

/-- The number of `chdir()` calls recorded in a trace. -/
def chdirs (t : List Event) : Nat :=
  (t.filter (fun e => match e with | Event.chdir _ => true | _ => false)).length

/-! ## Specification-side definitions and invariants -/

/-- The token `msh_split_line` stores for the token `strtok` returned. -/
def substitute (s : Shell) (token : CStr) : CStr :=
  msh_sub_loop s (keywords.zip msh_sub) token

/-- The lookup `resolve` of the specification's VariableRegistry: the decimal
exit status for the token `$?`, the decimal process identifier for the token
`$$`, no result for any other token. -/
def resolve (s : Shell) (token : CStr) : Option CStr :=
  if token = ['$', '?'] then some (sprintf_d s.exit_status)
  else if token = ['$', '$'] then some (sprintf_d s.msh_pid)
  else none

/-- The successive results of `strtok` on a line, as the `while` loop of
`msh_split_line` (and of `lsh_split_line` in `snippets/split_line.c`) obtains
them, before any substitution. The first argument bounds the number of calls. -/
def strtok_tokens : Nat → CStr → List CStr
  | 0, _ => []
  | fuel + 1, scan =>
    match strtok scan with
    | none => []
    | some (token, rest) => token :: strtok_tokens fuel rest

/-- The state of the token buffer once the tokens `pre` are stored: the first
cells hold them, the others are not written yet, `position` is their number
and lies below the capacity, the capacity is the multiple of 64 just above,
and the stores made so far went to the indices `0, 1, ...` in order, the
store at index `i` under the capacity `64 * (i / 64 + 1)`. -/
def BufInv (b : TokBuf) (pre : List CStr) : Prop :=
  b.cells = pre.map Cell.ptr ++ List.replicate (b.bufsize - pre.length) Cell.uninit ∧
  b.position = pre.length ∧ pre.length < b.bufsize ∧
  b.bufsize = 64 * (pre.length / 64 + 1) ∧
  b.stores = (List.range pre.length).map (fun i => (i, 64 * (i / 64 + 1)))

/-- What `msh_split_line` returns for the stored tokens `all`: they fill the
first cells, the terminator follows them, and the stores went to the indices
`0, ..., all.length` in order, the store at index `i` under the capacity
`64 * (i / 64 + 1)`. -/
def BufDone (b : TokBuf) (all : List CStr) : Prop :=
  b.cells = all.map Cell.ptr ++ Cell.null ::
      List.replicate (b.bufsize - all.length - 1) Cell.uninit ∧
  b.position = all.length ∧ all.length < b.bufsize ∧
  b.bufsize = 64 * (all.length / 64 + 1) ∧
  b.stores = (List.range (all.length + 1)).map (fun i => (i, 64 * (i / 64 + 1)))

/-! ## Concrete inputs used in the examples -/

/-- A blank line: spaces, a tab and the newline. -/
def blank_line : CStr := [' ', ' ', '\t', '\n']

/-- The operating system of the examples: no HOME, every `chdir` fails, the
unassigned `path` is unreadable and `fork` fails. -/
def os_refusing : OS :=
  { home := none, chdir := fun _ _ => none, path_indeterminate := none,
    fork := ForkResult.error }

/-- The operating system of the launch example: the child is first reported
stopped (status 0x137f), then exited with code 2 (status 0x0200). -/
def os_child_exits_2 : OS :=
  { home := none, chdir := fun _ _ => none, path_indeterminate := none,
    fork := ForkResult.child [0x137f, 0x0200] }

/-- The operating system of the kill example: the child is first reported
stopped (status 0x137f), then killed by signal 9 (status 0x0009). -/
def os_child_killed : OS :=
  { home := none, chdir := fun _ _ => none, path_indeterminate := none,
    fork := ForkResult.child [0x137f, 0x0009] }

/-- An operating system whose child is only ever reported stopped. -/
def os_child_stopped : OS :=
  { home := none, chdir := fun _ _ => none, path_indeterminate := none,
    fork := ForkResult.child [0x137f, 0x137f] }

/-- An operating system in which the unassigned `path` of `msh_cd` points to the
text `/tmp` and every `chdir` to a readable path succeeds. -/
def os_path_tmp : OS :=
  { home := some ['/', 'r', 'o', 'o', 't'], chdir := fun _ path => path,
    path_indeterminate := some ['/', 't', 'm', 'p'], fork := ForkResult.error }

/-! ## The tokenizer: `strtok` against the maximal runs -/

theorem splitOnP_head_tail (p : Char → Bool) (l : CStr) :
    l.splitOnP p = l.takeWhile (fun x => !p x) ::
      (match l.dropWhile (fun x => !p x) with
       | [] => []
       | _ :: r => r.splitOnP p) := by
  induction l with
  | nil => rfl
  | cons x xs ih =>
    rw [List.splitOnP_cons]
    by_cases h : p x = true
    · simp [h]
    · have h' : p x = false := by simpa using h
      rw [if_neg h, ih]
      simp [List.takeWhile_cons, List.dropWhile_cons, h', List.modifyHead]

theorem maximal_runs_dropWhile (l : CStr) :
    maximal_runs (l.dropWhile isDelim) = maximal_runs l := by
  induction l with
  | nil => rfl
  | cons x xs ih =>
    by_cases h : isDelim x = true
    · rw [List.dropWhile_cons_of_pos h, ih]
      simp [maximal_runs, List.splitOnP_cons, h]
    · rw [List.dropWhile_cons_of_neg h]

theorem maximal_runs_nil : maximal_runs [] = [] := rfl

/-- When `strtok` finds no token, the rest of the line holds delimiters only
and has no run. -/
theorem strtok_none {s : CStr} (h : strtok s = none) :
    maximal_runs s = [] ∧ ∀ c ∈ s, isDelim c = true := by
  unfold strtok at h
  split at h
  · rename_i hd
    refine ⟨?_, ?_⟩
    · rw [← maximal_runs_dropWhile, hd]; rfl
    · intro c hc
      have := List.dropWhile_eq_nil_iff.mp hd
      exact this c hc
  · cases h

/-- When `strtok` returns a token, the token is the first maximal run, the
saved scan position is strictly shorter than the current one and the runs of
the rest are the later runs. -/
theorem strtok_some {s tok rest : CStr} (h : strtok s = some (tok, rest)) :
    maximal_runs s = tok :: maximal_runs rest ∧ rest.length < s.length ∧
      tok ≠ [] ∧ (∀ c ∈ tok, isDelim c = false) ∧
      s.filter (fun c => !isDelim c) = tok ++ rest.filter (fun c => !isDelim c) := by
  unfold strtok at h
  split at h
  · cases h
  · rename_i c cs hd
    simp only [Option.some.injEq, Prod.mk.injEq] at h
    obtain ⟨htok, hrest⟩ := h
    have hc : isDelim c = false := by
      have := List.head_dropWhile_not isDelim s (by rw [hd]; simp)
      simpa [hd] using this
    have htne : tok ≠ [] := by
      rw [← htok, List.takeWhile_cons]; simp [hc]
    have hsplit : (c :: cs) = tok ++ (c :: cs).dropWhile (fun x => !isDelim x) := by
      rw [← htok]; exact (List.takeWhile_append_dropWhile _ _).symm
    have htd : ∀ x ∈ tok, isDelim x = false := by
      intro x hx
      rw [← htok] at hx
      simpa using List.mem_takeWhile_imp hx
    have hlen : (s.dropWhile isDelim).length ≤ s.length :=
      (List.dropWhile_sublist isDelim).length_le
    have hfs : s.filter (fun c => !isDelim c)
        = (s.dropWhile isDelim).filter (fun c => !isDelim c) := by
      clear hd hlen
      induction s with
      | nil => rfl
      | cons y ys ih =>
        by_cases hy : isDelim y = true
        · rw [List.dropWhile_cons_of_pos hy, ← ih]; simp [hy]
        · rw [List.dropWhile_cons_of_neg hy]
    have hft : tok.filter (fun c => !isDelim c) = tok := by
      rw [List.filter_eq_self]; intro x hx; simp [htd x hx]
    refine ⟨?_, ?_, htne, htd, ?_⟩
    · rw [← maximal_runs_dropWhile s, hd]
      unfold maximal_runs
      rw [splitOnP_head_tail isDelim (c :: cs), htok]
      have : (fun t : CStr => !t.isEmpty) tok = true := by
        cases tok with
        | nil => exact absurd rfl htne
        | cons _ _ => rfl
      rw [List.filter_cons, if_pos this]
      congr 1
      rw [← hrest]
      cases hdw : (c :: cs).dropWhile (fun x => !isDelim x) with
      | nil => rfl
      | cons d r => rfl
    · rw [hd] at hlen
      have h1 : (c :: cs).length = tok.length + ((c :: cs).dropWhile (fun x => !isDelim x)).length := by
        conv_lhs => rw [hsplit]
        rw [List.length_append]
      have h2 : 0 < tok.length := List.length_pos.mpr htne
      rw [← hrest, List.length_tail]
      omega
    · rw [hfs, hd]
      conv_lhs => rw [hsplit]
      rw [List.filter_append, hft, ← hrest]
      congr 1
      cases hdw : (c :: cs).dropWhile (fun x => !isDelim x) with
      | nil => rfl
      | cons d r =>
        have hdd : (fun x => !isDelim x) d = false := by
          have := List.head_dropWhile_not (fun x => !isDelim x) (c :: cs) (by rw [hdw]; simp)
          simpa [hdw] using this
        have hdd' : isDelim d = true := by simpa using hdd
        simp [hdd']

/-! ## The token buffer of `msh_split_line` -/

theorem set_first_uninit (xs : List Cell) (k : Nat) (v : Cell) (hk : 0 < k) :
    (xs ++ List.replicate k Cell.uninit).set xs.length v
      = xs ++ v :: List.replicate (k - 1) Cell.uninit := by
  obtain ⟨j, rfl⟩ : ∃ j, k = j + 1 := ⟨k - 1, by omega⟩
  induction xs with
  | nil => simp [List.replicate_succ]
  | cons x xs ih => simpa using ih

theorem msh_split_loop_spec (s : Shell) :
    ∀ (fuel : Nat) (scan : CStr) (b : TokBuf) (pre : List CStr),
      scan.length < fuel → BufInv b pre →
      ∃ b', msh_split_loop s fuel scan b = some b' ∧
        BufDone b' (pre ++ (maximal_runs scan).map (substitute s)) := by
  intro fuel
  induction fuel with
  | zero => intro scan b pre h; omega
  | succ fuel ih =>
    intro scan b pre hfuel hinv
    obtain ⟨hcells, hpos, hlt, hcap, hst⟩ := hinv
    unfold msh_split_loop
    cases hk : strtok scan with
    | none =>
      obtain ⟨hruns, -⟩ := strtok_none hk
      refine ⟨_, rfl, ?_⟩
      simp only [hruns, List.map_nil, List.append_nil]
      refine ⟨?_, hpos, hlt, hcap, ?_⟩
      · have := set_first_uninit (pre.map Cell.ptr) (b.bufsize - pre.length) Cell.null
          (by omega)
        simp only [List.length_map] at this
        simp only [hcells, hpos]
        rw [this]
      · simp only [hst, hpos, List.range_succ, List.map_append, List.map_cons, List.map_nil,
          ← hcap]
    | some tr =>
      obtain ⟨tok, rest⟩ := tr
      obtain ⟨hruns, hshort, -, -, -⟩ := strtok_some hk
      have hcells' : b.cells.set b.position (Cell.ptr (substitute s tok))
          = (pre ++ [substitute s tok]).map Cell.ptr ++
              List.replicate (b.bufsize - pre.length - 1) Cell.uninit := by
        have := set_first_uninit (pre.map Cell.ptr) (b.bufsize - pre.length)
          (Cell.ptr (substitute s tok)) (by omega)
        simp only [List.length_map] at this
        rw [hcells, hpos, this]
        simp
      have hst' : b.stores ++ [(b.position, b.bufsize)]
          = (List.range (pre ++ [substitute s tok]).length).map
              (fun i => (i, 64 * (i / 64 + 1))) := by
        simp only [hst, hpos, List.length_append, List.length_singleton, List.range_succ,
          List.map_append, List.map_cons, List.map_nil, ← hcap]
      have hlen' : (pre ++ [substitute s tok]).length = pre.length + 1 := by simp
      have hgoal : pre ++ (maximal_runs scan).map (substitute s)
          = (pre ++ [substitute s tok]) ++ (maximal_runs rest).map (substitute s) := by
        rw [hruns]; simp
      rw [hgoal]
      simp only [substitute] at hcells' ⊢
      split
      · rename_i hge
        apply ih rest _ (pre ++ [substitute s tok]) (by omega)
        refine ⟨?_, ?_, ?_, ?_, hst'⟩
        · simp only [substitute] at hcells' ⊢
          rw [hcells']
          have h0 : b.bufsize - pre.length - 1 = 0 := by omega
          have h1 : b.bufsize + MSH_TOK_BUFSIZE - (pre ++ [substitute s tok]).length
              = MSH_TOK_BUFSIZE := by rw [hlen']; omega
          simp only [substitute] at h1
          rw [h0, h1]; simp
        · simp only [hlen', hpos]
        · simp only [hlen', MSH_TOK_BUFSIZE]; omega
        · simp only [hlen', MSH_TOK_BUFSIZE]; omega
      · rename_i hge
        apply ih rest _ (pre ++ [substitute s tok]) (by omega)
        refine ⟨?_, ?_, ?_, ?_, hst'⟩
        · simp only [substitute] at hcells' ⊢
          rw [hcells']
          have h1 : b.bufsize - (pre ++ [substitute s tok]).length
              = b.bufsize - pre.length - 1 := by rw [hlen']; omega
          simp only [substitute] at h1
          rw [h1]
        · simp only [hlen', hpos]
        · simp only [hlen']; omega
        · simp only [hlen']; omega

/-- The function `msh_split_line` returns, whatever the line, and its buffer
holds the substituted maximal runs followed by the terminator. -/
theorem msh_split_line_spec (s : Shell) (line : CStr) :
    ∃ b, msh_split_line s line = some b ∧
      BufDone b ((maximal_runs line).map (substitute s)) := by
  have h := msh_split_loop_spec s (line.length + 1) line
    { cells := List.replicate MSH_TOK_BUFSIZE Cell.uninit,
      bufsize := MSH_TOK_BUFSIZE, position := 0, stores := [] } []
    (by omega)
    (by simp [BufInv, MSH_TOK_BUFSIZE])
  simpa [msh_split_line] using h

theorem read_args_ptrs (ts : List CStr) (rest : List Cell) :
    read_args (ts.map Cell.ptr ++ Cell.null :: rest) = ts := by
  induction ts with
  | nil => rfl
  | cons t ts ih => simp [read_args, ih]

/-- The arguments read back from the buffer of `msh_split_line` are the maximal
runs of the line, each one after the substitution loop. -/
theorem split_args_eq (s : Shell) (line : CStr) :
    split_args s line = (maximal_runs line).map (substitute s) := by
  obtain ⟨b, hb, hcells, -⟩ := msh_split_line_spec s line
  simp only [split_args, hb, hcells]
  exact read_args_ptrs _ _

theorem maximal_runs_props :
    ∀ (n : Nat) (line : CStr), line.length < n →
      (∀ t ∈ maximal_runs line, t ≠ [] ∧ ∀ c ∈ t, isDelim c = false) ∧
      (maximal_runs line).flatten = line.filter (fun c => !isDelim c) := by
  intro n
  induction n with
  | zero => intro line h; omega
  | succ n ih =>
    intro line hlen
    cases hk : strtok line with
    | none =>
      obtain ⟨hruns, hall⟩ := strtok_none hk
      rw [hruns]
      refine ⟨by simp, ?_⟩
      symm
      rw [List.flatten_nil, List.filter_eq_nil_iff]
      intro c hc
      simp [hall c hc]
    | some tr =>
      obtain ⟨tok, rest⟩ := tr
      obtain ⟨hruns, hshort, hne, hnd, hfil⟩ := strtok_some hk
      obtain ⟨ih1, ih2⟩ := ih rest (by omega)
      rw [hruns]
      refine ⟨?_, ?_⟩
      · intro t ht
        rcases List.mem_cons.mp ht with rfl | ht
        · exact ⟨hne, hnd⟩
        · exact ih1 t ht
      · rw [List.flatten_cons, ih2, hfil]

/-! ## Special-variable substitution -/

theorem digitChar_ne_dollar (n : Nat) : Nat.digitChar (n % 10) ≠ '$' := by
  have h : n % 10 < 10 := Nat.mod_lt _ (by norm_num)
  generalize n % 10 = d at h
  interval_cases d <;> decide

theorem toDigitsCore_mem (fuel : Nat) :
    ∀ (n : Nat) (ds : List Char) (c : Char), c ∈ Nat.toDigitsCore 10 fuel n ds →
      c ∈ ds ∨ c ≠ '$' := by
  induction fuel with
  | zero => intro n ds c h; exact Or.inl (by simpa [Nat.toDigitsCore] using h)
  | succ fuel ih =>
    intro n ds c h
    simp only [Nat.toDigitsCore] at h
    split at h
    · rcases List.mem_cons.mp h with rfl | h
      · exact Or.inr (digitChar_ne_dollar _)
      · exact Or.inl h
    · rcases ih _ _ c h with h | h
      · rcases List.mem_cons.mp h with rfl | h
        · exact Or.inr (digitChar_ne_dollar _)
        · exact Or.inl h
      · exact Or.inr h

/-- The text `%d` formats holds no dollar sign. -/
theorem sprintf_d_no_dollar (v : Int) : '$' ∉ sprintf_d v := by
  intro h
  unfold sprintf_d at h
  split at h
  · rcases List.mem_cons.mp h with h | h
    · exact absurd h (by decide)
    · rcases toDigitsCore_mem _ _ _ _ h with h | h
      · simp at h
      · exact h rfl
  · rcases toDigitsCore_mem _ _ _ _ h with h | h
    · simp at h
    · exact h rfl

theorem sprintf_d_ne_keyword (v : Int) (kw : CStr) (h : kw ∈ keywords) :
    sprintf_d v ≠ kw := by
  intro he
  have hd : '$' ∈ kw := by
    simp only [keywords, List.mem_cons, List.mem_singleton, List.not_mem_nil, or_false] at h
    rcases h with rfl | rfl <;> simp
  exact sprintf_d_no_dollar v (he ▸ hd)

/-- The text `%d` formats is the decimal numeral of the value. -/
theorem sprintf_d_eq_toString (v : Int) : String.mk (sprintf_d v) = toString v := by
  cases v with
  | ofNat n => rfl
  | negSucc n =>
    rw [sprintf_d, if_pos (Int.negSucc_lt_zero n)]
    rfl

theorem substitute_eq (s : Shell) (token : CStr) :
    substitute s token = (resolve s token).getD token := by
  have h1 := sprintf_d_ne_keyword s.exit_status ['$', '$'] (by simp [keywords])
  simp only [substitute, keywords, msh_sub, List.zip_cons_cons, List.zip_nil_right,
    msh_sub_loop, resolve, sub_exit_status, sub_msh_pid]
  by_cases ha : token = ['$', '?']
  · subst ha
    simp [h1]
  · by_cases hb : token = ['$', '$']
    · subst hb; simp
    · simp [ha, hb]

/-! ## Claims on the tokenizer -/

theorem strtok_tokens_eq :
    ∀ (fuel : Nat) (line : CStr), line.length < fuel →
      strtok_tokens fuel line = maximal_runs line := by
  intro fuel
  induction fuel with
  | zero => intro line h; omega
  | succ fuel ih =>
    intro line hlen
    unfold strtok_tokens
    cases hk : strtok line with
    | none => exact (strtok_none hk).1.symm
    | some tr =>
      obtain ⟨tok, rest⟩ := tr
      obtain ⟨hruns, hshort, -⟩ := strtok_some hk
      simp only [hruns, ih rest (by omega)]

theorem isDelim_eq_false_iff (c : Char) : isDelim c = false ↔ c ∉ MSH_TOK_DELIM := by
  simp [isDelim]

theorem not_isDelim_eq (c : Char) : (!isDelim c) = decide (c ∉ MSH_TOK_DELIM) := by
  by_cases h : c ∈ MSH_TOK_DELIM <;> simp [isDelim, h]

/-- C1: for every line, the tokens `strtok` yields inside `msh_split_line`
(before substitution) are exactly the maximal non-empty runs of non-delimiter
characters of the line, from left to right, and `msh_split_line` returns them,
each passed through the substitution loop; no token is empty, no token holds a
delimiter, and the tokens concatenated are the line without its delimiters. -/
theorem msh_split_line_maximal_runs (s : Shell) (line : CStr) :
    (∃ b, msh_split_line s line = some b ∧
      read_args b.cells = (strtok_tokens (line.length + 1) line).map (substitute s)) ∧
    strtok_tokens (line.length + 1) line = maximal_runs line ∧
    (∀ t ∈ strtok_tokens (line.length + 1) line, t ≠ [] ∧ ∀ c ∈ t, c ∉ MSH_TOK_DELIM) ∧
    (strtok_tokens (line.length + 1) line).flatten
      = line.filter (fun c => decide (c ∉ MSH_TOK_DELIM)) := by
  have heq := strtok_tokens_eq (line.length + 1) line (by omega)
  obtain ⟨h1, h2⟩ := maximal_runs_props (line.length + 1) line (by omega)
  obtain ⟨b, hb, hcells, -⟩ := msh_split_line_spec s line
  refine ⟨⟨b, hb, ?_⟩, heq, ?_, ?_⟩
  · rw [hcells, heq]; exact read_args_ptrs _ _
  · intro t ht
    rw [heq] at ht
    obtain ⟨hne, hnd⟩ := h1 t ht
    exact ⟨hne, fun c hc => (isDelim_eq_false_iff c).mp (hnd c hc)⟩
  · rw [heq, h2]
    congr 1
    funext c
    exact not_isDelim_eq c

/-- C2: for every shell state and every line, the token `msh_split_line`
stores for a token `t` of the line is the decimal text of `exit_status` when
`t` is exactly `$?`, the decimal text of `msh_pid` when `t` is exactly `$$`,
and `t` itself otherwise; this is one lookup on the original token, so a
substituted value is never replaced again, and a token that only contains a
trigger is kept; the two texts are the decimal numerals of the two values. -/
theorem msh_split_line_substitution (s : Shell) (line : CStr) :
    split_args s line = (strtok_tokens (line.length + 1) line).map
      (fun t => if t = ['$', '?'] then sprintf_d s.exit_status
                else if t = ['$', '$'] then sprintf_d s.msh_pid else t) ∧
    (∀ t, substitute s t = (resolve s t).getD t) ∧
    substitute s ['$', '?'] = sprintf_d s.exit_status ∧
    substitute s ['$', '$'] = sprintf_d s.msh_pid ∧
    (∀ t, t ≠ ['$', '?'] → t ≠ ['$', '$'] → substitute s t = t) ∧
    substitute s "prefix$?".toList = "prefix$?".toList ∧
    substitute s "$?x".toList = "$?x".toList ∧
    String.mk (sprintf_d s.exit_status) = toString s.exit_status ∧
    String.mk (sprintf_d s.msh_pid) = toString s.msh_pid := by
  have hsub : ∀ t, substitute s t = if t = ['$', '?'] then sprintf_d s.exit_status
      else if t = ['$', '$'] then sprintf_d s.msh_pid else t := by
    intro t
    rw [substitute_eq]
    unfold resolve
    split_ifs <;> rfl
  refine ⟨?_, substitute_eq s, ?_, ?_, ?_, ?_, ?_, sprintf_d_eq_toString _,
    sprintf_d_eq_toString _⟩
  · rw [split_args_eq, strtok_tokens_eq _ _ (by omega)]
    exact List.map_congr_left (fun t _ => hsub t)
  · rw [hsub]; simp
  · rw [hsub]; simp
  · intro t h1 h2; rw [hsub]; simp [h1, h2]
  · rw [hsub, if_neg (by decide), if_neg (by decide)]
  · rw [hsub, if_neg (by decide), if_neg (by decide)]

/-- The line of `snippets/split_line.c` splits into its two words. -/
theorem split_args_hello_world :
    split_args (startup 100 ['/']) "hello  world!".toList
      = ["hello".toList, "world!".toList] := by
  decide

/-- A line with both triggers, after a command that left `exit_status` 2 in
the shell of process identifier 77. -/
theorem split_args_triggers :
    split_args { exit_status := 2, msh_pid := 77, cwd := ['/'], trace := [] }
        "  echo\t$?  $$ a$? \n".toList
      = ["echo".toList, "2".toList, "77".toList, "a$?".toList] := by
  decide

set_option maxRecDepth 100000 in
/-- A line of 64 one-letter tokens: the capacity grows to 128 when the 64th
token is stored, and the terminator goes to index 64. -/
theorem msh_split_line_64_tokens :
    (msh_split_line (startup 100 ['/']) (List.replicate 64 ['a', ' ']).flatten).map
        (fun b => (b.position, b.bufsize, b.cells.get? 63, b.cells.get? 64, b.stores.getLast?))
      = some (64, 128, some (Cell.ptr ['a']), some Cell.null, some (64, 128)) := by
  rfl

set_option maxRecDepth 100000 in
/-- A line of 63 one-letter tokens: the capacity stays 64 and the terminator
goes to index 63. -/
theorem msh_split_line_63_tokens :
    (msh_split_line (startup 100 ['/']) (List.replicate 63 ['a', ' ']).flatten).map
        (fun b => (b.position, b.bufsize, b.cells.get? 62, b.cells.get? 63, b.stores.getLast?))
      = some (63, 64, some (Cell.ptr ['a']), some Cell.null, some (63, 64)) := by
  rfl

/-- C9: for every line, with `n` its number of tokens, `msh_split_line`
returns; its stores went to the indices `0, ..., n` in order (the last one
being the terminator), the store at index `i` under the capacity
`64 * (i / 64 + 1)`, which is above `i`; the final capacity is
`64 * (n / 64 + 1)`, and the buffer holds the `n` tokens in order followed by
the terminator. -/
theorem msh_split_line_capacity (s : Shell) (line : CStr) :
    ∃ b, msh_split_line s line = some b ∧
      (∀ w ∈ b.stores, w.1 < w.2) ∧
      b.stores = (List.range ((strtok_tokens (line.length + 1) line).length + 1)).map
        (fun i => (i, 64 * (i / 64 + 1))) ∧
      b.bufsize = 64 * ((strtok_tokens (line.length + 1) line).length / 64 + 1) ∧
      b.cells.length = b.bufsize ∧
      b.cells.take (strtok_tokens (line.length + 1) line).length
        = ((strtok_tokens (line.length + 1) line).map (substitute s)).map Cell.ptr ∧
      b.cells.get? (strtok_tokens (line.length + 1) line).length = some Cell.null := by
  have heq := strtok_tokens_eq (line.length + 1) line (by omega)
  obtain ⟨b, hb, hcells, -, hlt, hcap, hst⟩ := msh_split_line_spec s line
  rw [heq]
  simp only [List.length_map] at hlt hcap hst
  refine ⟨b, hb, ?_, hst, hcap, ?_, ?_, ?_⟩
  · intro w hw
    rw [hst] at hw
    obtain ⟨i, -, rfl⟩ := List.mem_map.mp hw
    simp only
    omega
  · rw [hcells]
    simp only [List.length_append, List.length_map, List.length_cons, List.length_replicate]
    omega
  · rw [hcells]
    have hl : (List.map Cell.ptr (List.map (substitute s) (maximal_runs line))).length
        = (maximal_runs line).length := by simp
    rw [← hl, List.take_left]
  · rw [hcells]
    have hl : (List.map Cell.ptr (List.map (substitute s) (maximal_runs line))).length
        = (maximal_runs line).length := by simp
    rw [← hl, List.get?_eq_getElem?, List.getElem?_append_right (le_refl _)]
    simp

/-! ## Builtins, launch and dispatch -/

theorem forks_append (t u : List Event) : forks (t ++ u) = forks t + forks u := by
  simp [forks, List.filter_append]

theorem chdirs_append (t u : List Event) : chdirs (t ++ u) = chdirs t + chdirs u := by
  simp [chdirs, List.filter_append]

theorem msh_cd_ret (os : OS) (args : List CStr) (s : Shell) :
    (msh_cd os args s).ret = some 1 := by
  unfold msh_cd
  simp only
  split <;> rfl

theorem msh_cd_forks (os : OS) (args : List CStr) (s : Shell) :
    forks (msh_cd os args s).st.trace = forks s.trace := by
  unfold msh_cd
  simp only
  split <;> split <;> (try split) <;> simp_all [Shell.emit, forks_append, forks]

theorem msh_help_forks (os : OS) (args : List CStr) (s : Shell) :
    forks (msh_help os args s).st.trace = forks s.trace := by
  simp [msh_help, forks_append, forks, builtin_str, keywords]

theorem msh_launch_forks (os : OS) (args : List CStr) (s : Shell) :
    forks (msh_launch os args s).st.trace = forks s.trace + 1 := by
  unfold msh_launch
  simp only
  split
  · simp [Shell.emit, forks_append, forks]
  · split <;> simp [Shell.emit, forks_append, forks]

/-- The wait loop of `msh_launch` goes round again exactly on a status word
whose low seven bits are all set (a stop report): the low seven bits 0 are a
normal exit, 1 to 126 a kill by that signal. -/
theorem keeps_waiting_iff (w : Int) :
    (!WIFEXITED w && !WIFSIGNALED w) = true ↔ w % 128 = 127 := by
  simp only [WIFEXITED, WIFSIGNALED, WTERMSIG, toSignedChar, Bool.and_eq_true,
    Bool.not_eq_true', decide_eq_false_iff_not]
  split_ifs <;> omega

/-- The wait loop ends on the first status word that is not a stop report. -/
theorem wait_loop_first_report (stops : List Int) (w : Int) (later : List Int)
    (hs : ∀ x ∈ stops, x % 128 = 127) (hw : w % 128 ≠ 127) :
    wait_loop (stops ++ w :: later) = some w := by
  induction stops with
  | nil =>
    have h : ¬ ((!WIFEXITED w && !WIFSIGNALED w) = true) :=
      fun h => hw ((keeps_waiting_iff w).mp h)
    simp only [List.nil_append, wait_loop, if_neg h]
  | cons x xs ih =>
    have h := (keeps_waiting_iff x).mpr (hs x (List.mem_cons_self _ _))
    simp only [List.cons_append, wait_loop, if_pos h]
    exact ih (fun y hy => hs y (List.mem_cons_of_mem _ hy))

/-- The wait loop ends without a status exactly when every status word is a
stop report. -/
theorem wait_loop_none_iff (statuses : List Int) :
    wait_loop statuses = none ↔ ∀ w ∈ statuses, w % 128 = 127 := by
  induction statuses with
  | nil => simp [wait_loop]
  | cons x xs ih =>
    by_cases h : (!WIFEXITED x && !WIFSIGNALED x) = true
    · have hx := (keeps_waiting_iff x).mp h
      simp only [wait_loop, if_pos h, ih, List.mem_cons, forall_eq_or_imp, hx, true_and]
    · have hx : x % 128 ≠ 127 := fun hx => h ((keeps_waiting_iff x).mpr hx)
      simp only [wait_loop, if_neg h, List.mem_cons, forall_eq_or_imp, hx, false_and]
      simp

/-- The function `msh_launch` has no returned value exactly when `fork` gave a
child and every status word `waitpid` stores for it is a stop report. -/
theorem msh_launch_ret_none_iff (os : OS) (args : List CStr) (s : Shell) :
    (msh_launch os args s).ret = none ↔
      ∃ statuses, os.fork = ForkResult.child statuses ∧ ∀ w ∈ statuses, w % 128 = 127 := by
  unfold msh_launch
  simp only
  split
  · rename_i hf
    simp [hf]
  · rename_i statuses hf
    split
    · rename_i hw
      simp only [true_iff]
      exact ⟨statuses, hf, (wait_loop_none_iff statuses).mp hw⟩
    · rename_i status hw
      constructor
      · intro h; cases h
      · rintro ⟨sts, hsts, hall⟩
        rw [hf] at hsts
        cases hsts
        rw [(wait_loop_none_iff _).mpr hall] at hw
        cases hw

/-- The function `msh_launch` returns 1 whenever it returns. -/
theorem msh_launch_ret_cases (os : OS) (args : List CStr) (s : Shell) :
    (msh_launch os args s).ret = some 1 ∨ (msh_launch os args s).ret = none := by
  unfold msh_launch
  simp only
  split
  · exact Or.inl rfl
  · split
    · exact Or.inr rfl
    · exact Or.inl rfl

/-- The function `msh_launch` returns 1 exactly when `fork` fails or some status
word `waitpid` stores for the child is not a stop report. -/
theorem msh_launch_ret_one_iff (os : OS) (args : List CStr) (s : Shell) :
    (msh_launch os args s).ret = some 1 ↔
      (os.fork = ForkResult.error ∨
        ∃ statuses, os.fork = ForkResult.child statuses ∧ ∃ w ∈ statuses, w % 128 ≠ 127) := by
  have hn := msh_launch_ret_none_iff os args s
  constructor
  · intro h1
    cases hf : os.fork with
    | error => exact Or.inl rfl
    | child statuses =>
      refine Or.inr ⟨statuses, rfl, ?_⟩
      by_contra hall
      push_neg at hall
      have := hn.mpr ⟨statuses, hf, hall⟩
      rw [this] at h1
      cases h1
  · intro h
    rcases msh_launch_ret_cases os args s with h1 | h0
    · exact h1
    · obtain ⟨statuses, hf, hall⟩ := hn.mp h0
      rcases h with he | ⟨sts, hsts, w, hw, hne⟩
      · rw [he] at hf; cases hf
      · rw [hf] at hsts
        cases hsts
        exact absurd (hall w hw) hne

/-- After `fork` gave a child, the first status word that is not a stop report
ends `msh_launch`: it returns 1 with `exit_status` the bits 8 to 15 of that
word, whether the word reports an exit or a kill. -/
theorem msh_launch_first_report (os : OS) (args : List CStr) (s : Shell)
    (stops : List Int) (w : Int) (later : List Int)
    (hf : os.fork = ForkResult.child (stops ++ w :: later))
    (hs : ∀ x ∈ stops, x % 128 = 127) (hw : w % 128 ≠ 127) :
    msh_launch os args s =
      { st := { s with trace := s.trace ++ [Event.fork args],
                       exit_status := w / 256 % 256 },
        ret := some 1 } := by
  simp [msh_launch, hf, wait_loop_first_report stops w later hs hw, Shell.emit, WEXITSTATUS]

/-- The dispatch of `msh_execute`, case by case on token 0. -/
theorem msh_execute_cons (os : OS) (arg0 : CStr) (rest : List CStr) (s : Shell) :
    msh_execute os (arg0 :: rest) s =
      if arg0 = ['c', 'd'] then msh_cd os (arg0 :: rest) s
      else if arg0 = ['h', 'e', 'l', 'p'] then msh_help os (arg0 :: rest) s
      else if arg0 = ['e', 'x', 'i', 't'] then msh_exit os (arg0 :: rest) s
      else msh_launch os (arg0 :: rest) s := by
  simp only [msh_execute, builtin_str, builtin_fun, List.zip_cons_cons, List.zip_nil_right,
    msh_execute_loop]

theorem mem_builtin_str (arg0 : CStr) :
    arg0 ∈ builtin_str ↔
      arg0 = ['c', 'd'] ∨ arg0 = ['h', 'e', 'l', 'p'] ∨ arg0 = ['e', 'x', 'i', 't'] := by
  simp [builtin_str]

/-- C5: for every token sequence with a token 0, `msh_execute` is the call of
`msh_cd`, `msh_help` or `msh_exit` when token 0 is exactly `cd`, `help` or
`exit`, and then no `fork` is made; it is the call of `msh_launch` on the whole
sequence when token 0 is none of the three; a `fork` is made exactly in that
case. The comparison is exact and case-sensitive: `CD`, `cdx` and `Exit` are
not builtin names. -/
theorem msh_execute_dispatch (os : OS) (arg0 : CStr) (rest : List CStr) (s : Shell) :
    (arg0 = ['c', 'd'] → msh_execute os (arg0 :: rest) s = msh_cd os (arg0 :: rest) s) ∧
    (arg0 = ['h', 'e', 'l', 'p'] →
      msh_execute os (arg0 :: rest) s = msh_help os (arg0 :: rest) s) ∧
    (arg0 = ['e', 'x', 'i', 't'] →
      msh_execute os (arg0 :: rest) s = msh_exit os (arg0 :: rest) s) ∧
    (arg0 ∈ builtin_str →
      forks (msh_execute os (arg0 :: rest) s).st.trace = forks s.trace) ∧
    (arg0 ∉ builtin_str →
      msh_execute os (arg0 :: rest) s = msh_launch os (arg0 :: rest) s) ∧
    (forks (msh_execute os (arg0 :: rest) s).st.trace = forks s.trace + 1 ↔
      arg0 ∉ builtin_str) ∧
    "CD".toList ∉ builtin_str ∧ "cdx".toList ∉ builtin_str ∧ "Exit".toList ∉ builtin_str := by
  have hb : arg0 ∈ builtin_str →
      forks (msh_execute os (arg0 :: rest) s).st.trace = forks s.trace := by
    intro h
    rw [msh_execute_cons]
    rcases (mem_builtin_str arg0).mp h with rfl | rfl | rfl
    · rw [if_pos rfl]; exact msh_cd_forks _ _ _
    · rw [if_neg (by decide), if_pos rfl]; exact msh_help_forks _ _ _
    · rw [if_neg (by decide), if_neg (by decide), if_pos rfl]; rfl
  have hl : arg0 ∉ builtin_str →
      msh_execute os (arg0 :: rest) s = msh_launch os (arg0 :: rest) s := by
    intro h
    rw [mem_builtin_str] at h
    push_neg at h
    rw [msh_execute_cons, if_neg h.1, if_neg h.2.1, if_neg h.2.2]
  refine ⟨?_, ?_, ?_, hb, hl, ?_, by decide, by decide, by decide⟩
  · rintro rfl; rw [msh_execute_cons, if_pos rfl]
  · rintro rfl; rw [msh_execute_cons, if_neg (by decide), if_pos rfl]
  · rintro rfl
    rw [msh_execute_cons, if_neg (by decide), if_neg (by decide), if_pos rfl]
  · constructor
    · intro h hmem
      rw [hb hmem] at h
      omega
    · intro h
      rw [hl h]
      exact msh_launch_forks _ _ _

theorem maximal_runs_of_delims (line : CStr) (h : ∀ c ∈ line, c ∈ MSH_TOK_DELIM) :
    maximal_runs line = [] := by
  apply (strtok_none _).1
  unfold strtok
  have hd : line.dropWhile isDelim = [] := by
    rw [List.dropWhile_eq_nil_iff]
    intro c hc
    simpa [isDelim] using h c hc
  rw [hd]

/-- C6: for every shell state and every line that is empty or made of
delimiters only, `msh_split_line` returns a buffer holding no token, and
`msh_execute` on it returns 1 and leaves the whole state as it was: no builtin
ran, nothing was forked, `exit_status` and the working directory are the same. -/
theorem msh_execute_blank_line (os : OS) (s : Shell) (line : CStr)
    (h : ∀ c ∈ line, c ∈ MSH_TOK_DELIM) :
    (∃ b, msh_split_line s line = some b ∧ read_args b.cells = []) ∧
    split_args s line = [] ∧
    msh_execute os (split_args s line) s = { st := s, ret := some 1 } := by
  have hr := maximal_runs_of_delims line h
  have ha : split_args s line = [] := by rw [split_args_eq, hr]; rfl
  refine ⟨?_, ha, ?_⟩
  · obtain ⟨b, hb, hcells, -⟩ := msh_split_line_spec s line
    refine ⟨b, hb, ?_⟩
    rw [hcells, hr]; rfl
  · rw [ha]; rfl

theorem msh_execute_blank_line_witness :
    (∀ c ∈ blank_line, c ∈ MSH_TOK_DELIM) ∧
    split_args (startup 100 ['/']) blank_line = [] ∧
    msh_execute os_refusing (split_args (startup 100 ['/']) blank_line) (startup 100 ['/'])
      = { st := startup 100 ['/'], ret := some 1 } :=
  ⟨by decide,
   (msh_execute_blank_line os_refusing (startup 100 ['/']) blank_line (by decide)).2.1,
   (msh_execute_blank_line os_refusing (startup 100 ['/']) blank_line (by decide)).2.2⟩

/-- C7: for every shell state and every token sequence, `msh_execute` returns
0 if and only if token 0 is exactly `exit`, whatever follows it, and then the
state is left as it was (same `exit_status`, nothing forked). For every other
token sequence the value returned is 1: always for the empty sequence, `cd`
and `help`, and for an external command as soon as `fork` fails or `waitpid`
stores a status word that is not a stop report (low seven bits not all set:
an exit or a kill). No value is returned only for an external command whose
child is reported stopped by every `waitpid` call. -/
theorem msh_execute_terminates_iff_exit (os : OS) (args : List CStr) (s : Shell) :
    ((msh_execute os args s).ret = some 0 ↔ args.head? = some ['e', 'x', 'i', 't']) ∧
    (args.head? = some ['e', 'x', 'i', 't'] →
      msh_execute os args s = { st := s, ret := some 0 }) ∧
    ((msh_execute os args s).ret = none ↔
      ((∃ a, args.head? = some a ∧ a ∉ builtin_str) ∧
        ∃ statuses, os.fork = ForkResult.child statuses ∧ ∀ w ∈ statuses, w % 128 = 127)) ∧
    (args.head? ≠ some ['e', 'x', 'i', 't'] →
      ((msh_execute os args s).ret = some 1 ↔
        ¬ ((∃ a, args.head? = some a ∧ a ∉ builtin_str) ∧
          ∃ statuses, os.fork = ForkResult.child statuses ∧
            ∀ w ∈ statuses, w % 128 = 127))) ∧
    (args.head? ≠ some ['e', 'x', 'i', 't'] →
      (os.fork = ForkResult.error ∨
        ∃ statuses, os.fork = ForkResult.child statuses ∧ ∃ w ∈ statuses, w % 128 ≠ 127) →
      (msh_execute os args s).ret = some 1) ∧
    (args = [] ∨ args.head? = some ['c', 'd'] ∨ args.head? = some ['h', 'e', 'l', 'p'] →
      (msh_execute os args s).ret = some 1) := by
  have hexit : args.head? = some ['e', 'x', 'i', 't'] →
      msh_execute os args s = { st := s, ret := some 0 } := by
    intro h
    cases args with
    | nil => cases h
    | cons arg0 rest =>
      simp only [List.head?_cons, Option.some.injEq] at h
      subst h
      rw [msh_execute_cons, if_neg (by decide), if_neg (by decide), if_pos rfl]
      rfl
  have hbuiltin : args = [] ∨ args.head? = some ['c', 'd'] ∨
      args.head? = some ['h', 'e', 'l', 'p'] → (msh_execute os args s).ret = some 1 := by
    intro h
    cases args with
    | nil => rfl
    | cons arg0 rest =>
      simp only [List.head?_cons, Option.some.injEq, reduceCtorEq, false_or] at h
      rw [msh_execute_cons]
      rcases h with h | h
      · rw [if_pos h]; exact msh_cd_ret _ _ _
      · subst h
        rw [if_neg (by decide), if_pos rfl]; rfl
  have hcases : (msh_execute os args s).ret = some 0 ∨ (msh_execute os args s).ret = some 1 ∨
      (msh_execute os args s).ret = none := by
    cases args with
    | nil => exact Or.inr (Or.inl rfl)
    | cons arg0 rest =>
      rw [msh_execute_cons]
      split_ifs
      · exact Or.inr (Or.inl (msh_cd_ret _ _ _))
      · exact Or.inr (Or.inl rfl)
      · exact Or.inl rfl
      · exact Or.inr (msh_launch_ret_cases _ _ _)
  have hnone : (msh_execute os args s).ret = none ↔
      ((∃ a, args.head? = some a ∧ a ∉ builtin_str) ∧
        ∃ statuses, os.fork = ForkResult.child statuses ∧
          ∀ w ∈ statuses, w % 128 = 127) := by
    cases args with
    | nil =>
      constructor
      · intro h; cases h
      · rintro ⟨⟨a, ha, -⟩, -⟩; cases ha
    | cons arg0 rest =>
      rw [msh_execute_cons]
      simp only [List.head?_cons, Option.some.injEq, exists_eq_left', mem_builtin_str]
      by_cases h1 : arg0 = ['c', 'd']
      · rw [if_pos h1, msh_cd_ret]
        simp [h1]
      · by_cases h2 : arg0 = ['h', 'e', 'l', 'p']
        · rw [if_neg h1, if_pos h2]
          simp [msh_help, h2]
        · by_cases h3 : arg0 = ['e', 'x', 'i', 't']
          · rw [if_neg h1, if_neg h2, if_pos h3]
            simp [msh_exit, h3]
          · rw [if_neg h1, if_neg h2, if_neg h3, msh_launch_ret_none_iff]
            simp [h1, h2, h3]
  have hzero : (msh_execute os args s).ret = some 0 →
      args.head? = some ['e', 'x', 'i', 't'] := by
    intro h0
    cases args with
    | nil => cases h0
    | cons arg0 rest =>
      rw [msh_execute_cons] at h0
      simp only [List.head?_cons, Option.some.injEq]
      by_contra h3
      by_cases h1 : arg0 = ['c', 'd']
      · rw [if_pos h1, msh_cd_ret] at h0; cases h0
      · by_cases h2 : arg0 = ['h', 'e', 'l', 'p']
        · rw [if_neg h1, if_pos h2] at h0; cases h0
        · rw [if_neg h1, if_neg h2, if_neg h3] at h0
          rcases msh_launch_ret_cases os (arg0 :: rest) s with h | h <;>
            (rw [h] at h0; cases h0)
  have hone : args.head? ≠ some ['e', 'x', 'i', 't'] →
      ((msh_execute os args s).ret = some 1 ↔
        ¬ ((∃ a, args.head? = some a ∧ a ∉ builtin_str) ∧
          ∃ statuses, os.fork = ForkResult.child statuses ∧
            ∀ w ∈ statuses, w % 128 = 127)) := by
    intro hne
    rw [← hnone]
    rcases hcases with h | h | h
    · exact absurd (hzero h) hne
    · simp [h]
    · simp [h]
  refine ⟨⟨hzero, fun h => by rw [hexit h]⟩, hexit, hnone, hone, ?_, hbuiltin⟩
  intro hne hrep
  rw [hone hne]
  rintro ⟨-, statuses, hf, hall⟩
  rcases hrep with he | ⟨sts, hsts, w, hw, hw127⟩
  · rw [he] at hf; cases hf
  · rw [hf] at hsts
    cases hsts
    exact hw127 (hall w hw)

theorem msh_execute_terminates_iff_exit_witness :
    (msh_execute os_child_killed [['l', 's']] (startup 100 ['/'])).ret = some 1 ∧
    (msh_execute os_child_stopped [['l', 's']] (startup 100 ['/'])).ret = none ∧
    msh_execute os_child_killed [['e', 'x', 'i', 't'], ['7']] (startup 100 ['/'])
      = { st := startup 100 ['/'], ret := some 0 } :=
  ⟨(msh_execute_terminates_iff_exit os_child_killed [['l', 's']] (startup 100 ['/'])).2.2.2.2.1
      (by decide) (Or.inr ⟨[0x137f, 0x0009], rfl, 0x0009, by decide, by decide⟩),
   ((msh_execute_terminates_iff_exit os_child_stopped [['l', 's']]
      (startup 100 ['/'])).2.2.1).mpr
      ⟨⟨['l', 's'], rfl, by decide⟩, [0x137f, 0x137f], rfl, by decide⟩,
   (msh_execute_terminates_iff_exit os_child_killed [['e', 'x', 'i', 't'], ['7']]
      (startup 100 ['/'])).2.1 rfl⟩

theorem wait_loop_append (stops : List Int) (w : Int) (later : List Int)
    (hs : ∀ x ∈ stops, WIFEXITED x = false ∧ WIFSIGNALED x = false)
    (hw : WIFEXITED w = true ∨ WIFSIGNALED w = true) :
    wait_loop (stops ++ w :: later) = some w := by
  induction stops with
  | nil =>
    rcases hw with hw | hw <;> simp [wait_loop, hw]
  | cons x xs ih =>
    obtain ⟨h1, h2⟩ := hs x (List.mem_cons_self _ _)
    simp only [List.cons_append, wait_loop, h1, h2, Bool.not_false, Bool.and_self, if_true]
    exact ih (fun y hy => hs y (List.mem_cons_of_mem _ hy))

theorem WEXITSTATUS_range (status : Int) :
    0 ≤ WEXITSTATUS status ∧ WEXITSTATUS status ≤ 255 := by
  unfold WEXITSTATUS
  omega

theorem W_EXITCODE_exited (c : Int) (h0 : 0 ≤ c) (h1 : c ≤ 255) :
    WIFEXITED (W_EXITCODE c 0) = true ∧ WEXITSTATUS (W_EXITCODE c 0) = c := by
  simp only [WIFEXITED, WTERMSIG, WEXITSTATUS, W_EXITCODE, decide_eq_true_eq]
  omega

/-- C8: for every argument list and every shell state, `msh_launch` returns 1
whenever it returns, and it returns exactly when `fork` fails or `waitpid`
stores a status word that is not a stop report (low seven bits not all set),
be it an exit or a kill; no value is returned only when every status word is
a stop report. When `fork` fails no wait is made and only the trace changes
(`exit_status` is the same). When `fork` succeeds, the first status word that
is not a stop report ends the wait and `exit_status` becomes its bits 8 to 15:
after a normal exit with code `c` (status word `c * 256`) `exit_status` is
`c`; the child of `msh_launch` whose `execvp` fails exits with EXIT_FAILURE,
so `exit_status` is then 1, not zero. -/
theorem msh_launch_exit_status (os : OS) (args : List CStr) (s : Shell) :
    ((msh_launch os args s).ret = some 1 ∨ (msh_launch os args s).ret = none) ∧
    ((msh_launch os args s).ret = some 1 ↔
      (os.fork = ForkResult.error ∨
        ∃ statuses, os.fork = ForkResult.child statuses ∧
          ∃ w ∈ statuses, w % 128 ≠ 127)) ∧
    ((msh_launch os args s).ret = none ↔
      ∃ statuses, os.fork = ForkResult.child statuses ∧ ∀ w ∈ statuses, w % 128 = 127) ∧
    (os.fork = ForkResult.error →
      msh_launch os args s =
        { st := { s with trace := s.trace ++ [Event.fork args, Event.perror "msh"] },
          ret := some 1 }) ∧
    (∀ stops w later, os.fork = ForkResult.child (stops ++ w :: later) →
      (∀ x ∈ stops, x % 128 = 127) → w % 128 ≠ 127 →
      msh_launch os args s =
        { st := { s with trace := s.trace ++ [Event.fork args],
                         exit_status := w / 256 % 256 },
          ret := some 1 }) ∧
    (∀ stops w later, os.fork = ForkResult.child (stops ++ w :: later) →
      (∀ x ∈ stops, WIFEXITED x = false ∧ WIFSIGNALED x = false) →
      WIFEXITED w = true →
      msh_launch os args s =
        { st := { s with trace := s.trace ++ [Event.fork args],
                         exit_status := WEXITSTATUS w },
          ret := some 1 }) ∧
    (∀ stops (c : Int) later, 0 ≤ c → c ≤ 255 →
      os.fork = ForkResult.child (stops ++ (c * 256) :: later) →
      (∀ x ∈ stops, x % 128 = 127) →
      msh_launch os args s =
        { st := { s with trace := s.trace ++ [Event.fork args], exit_status := c },
          ret := some 1 }) ∧
    (∀ c : Int, 0 ≤ c → c ≤ 255 →
      W_EXITCODE c 0 = c * 256 ∧
      WIFEXITED (W_EXITCODE c 0) = true ∧ WEXITSTATUS (W_EXITCODE c 0) = c) ∧
    (∀ stops later,
      os.fork = ForkResult.child (stops ++ (msh_launch_child none * 256) :: later) →
      (∀ x ∈ stops, x % 128 = 127) →
      (msh_launch os args s).ret = some 1 ∧
      (msh_launch os args s).st.exit_status = EXIT_FAILURE ∧
      (msh_launch os args s).st.exit_status ≠ 0) := by
  refine ⟨msh_launch_ret_cases os args s, msh_launch_ret_one_iff os args s,
    msh_launch_ret_none_iff os args s, ?_, ?_, ?_, ?_, ?_, ?_⟩
  · intro hf
    simp [msh_launch, hf, Shell.emit]
  · intro stops w later hf hs hw
    exact msh_launch_first_report os args s stops w later hf hs hw
  · intro stops w later hf hs hw
    simp [msh_launch, hf, wait_loop_append stops w later hs (Or.inl hw), Shell.emit]
  · intro stops c later h0 h1 hf hs
    rw [msh_launch_first_report os args s stops (c * 256) later hf hs (by omega)]
    have hc : c * 256 / 256 % 256 = c := by omega
    rw [hc]
  · intro c h0 h1
    refine ⟨?_, W_EXITCODE_exited c h0 h1⟩
    simp only [W_EXITCODE]
    omega
  · intro stops later hf hs
    rw [msh_launch_first_report os args s stops _ later hf hs (by decide)]
    have h1 : msh_launch_child none * 256 / 256 % 256 = EXIT_FAILURE := by decide
    have h2 : EXIT_FAILURE ≠ 0 := by decide
    exact ⟨rfl, h1, fun h => h2 (h1.symm.trans h)⟩

theorem msh_launch_exit_status_witness :
    msh_launch os_child_exits_2 [['l', 's']] (startup 100 ['/']) =
      { st := { exit_status := 2, msh_pid := 100, cwd := ['/'],
                trace := [Event.fork [['l', 's']]] },
        ret := some 1 } ∧
    msh_launch os_child_killed [['l', 's']] (startup 100 ['/']) =
      { st := { exit_status := 0, msh_pid := 100, cwd := ['/'],
                trace := [Event.fork [['l', 's']]] },
        ret := some 1 } ∧
    (msh_launch os_refusing [['l', 's']] (startup 100 ['/'])).ret = some 1 :=
  ⟨(msh_launch_exit_status os_child_exits_2 [['l', 's']] (startup 100 ['/'])).2.2.2.2.2.2.1
      [0x137f] 2 [] (by decide) (by decide) rfl (by decide),
   (msh_launch_exit_status os_child_killed [['l', 's']] (startup 100 ['/'])).2.2.2.2.1
      [0x137f] 0x0009 [] rfl (by decide) (by decide),
   ((msh_launch_exit_status os_refusing [['l', 's']] (startup 100 ['/'])).2.1).mpr
      (Or.inl rfl)⟩

/-! ## The range of `exit_status` -/

theorem msh_cd_exit_status (os : OS) (args : List CStr) (s : Shell) :
    (msh_cd os args s).st.exit_status = s.exit_status ∨
    (msh_cd os args s).st.exit_status = EXIT_FAILURE ∨
    (msh_cd os args s).st.exit_status = EXIT_SUCCESS := by
  unfold msh_cd
  simp only
  split <;> split <;> (try split) <;> simp_all [Shell.emit]

theorem msh_launch_status_cases (os : OS) (args : List CStr) (s : Shell) :
    (msh_launch os args s).st.exit_status = s.exit_status ∨
    ∃ status, (msh_launch os args s).st.exit_status = WEXITSTATUS status := by
  unfold msh_launch
  simp only
  split
  · exact Or.inl rfl
  · split
    · exact Or.inl rfl
    · rename_i status _
      exact Or.inr ⟨status, rfl⟩

theorem msh_execute_range (os : OS) (args : List CStr) (s : Shell)
    (h : 0 ≤ s.exit_status ∧ s.exit_status ≤ 255) :
    0 ≤ (msh_execute os args s).st.exit_status ∧
      (msh_execute os args s).st.exit_status ≤ 255 := by
  cases args with
  | nil => exact h
  | cons arg0 rest =>
    rw [msh_execute_cons]
    split_ifs
    · rcases msh_cd_exit_status os (arg0 :: rest) s with h1 | h1 | h1 <;> rw [h1]
      · exact h
      · decide
      · decide
    · exact ⟨le_refl _, show (0 : Int) ≤ 255 by decide⟩
    · exact h
    · rcases msh_launch_status_cases os (arg0 :: rest) s with h1 | ⟨w, h1⟩ <;> rw [h1]
      · exact h
      · exact WEXITSTATUS_range w

theorem sprintf_d_length (v : Int) (h0 : 0 ≤ v) (h1 : v ≤ 255) :
    (sprintf_d v).length ≤ 3 := by
  unfold sprintf_d
  rw [if_neg (by omega)]
  exact Nat.toDigitsCore_length 10 (by norm_num) _ _ 3 (by omega) (by norm_num)

/-- C10: in every state reachable from startup by dispatched commands,
`exit_status` lies in 0..255; the text `sub_exit_status` formats for `$?` then
has at most 3 characters and, with its terminating NUL, fits the buffer of
MSH_EXS_BUFSIZE = 4 bytes. -/
theorem reachable_exit_status_fits (s : Shell) (h : Reachable s) :
    0 ≤ s.exit_status ∧ s.exit_status ≤ 255 ∧
    (sub_exit_status s).length ≤ 3 ∧
    (sub_exit_status s).length + 1 ≤ MSH_EXS_BUFSIZE := by
  have hr : 0 ≤ s.exit_status ∧ s.exit_status ≤ 255 := by
    induction h with
    | startup pid cwd => exact ⟨le_refl _, show (0 : Int) ≤ 255 by decide⟩
    | dispatch os args s _ ih => exact msh_execute_range os args s ih
  have hl := sprintf_d_length s.exit_status hr.1 hr.2
  refine ⟨hr.1, hr.2, hl, ?_⟩
  simp only [sub_exit_status, MSH_EXS_BUFSIZE]
  omega

theorem reachable_exit_status_fits_witness :
    Reachable (msh_execute os_child_exits_2 [['l', 's']] (startup 100 ['/'])).st ∧
    (msh_execute os_child_exits_2 [['l', 's']] (startup 100 ['/'])).st.exit_status = 2 ∧
    (sub_exit_status
      (msh_execute os_child_exits_2 [['l', 's']] (startup 100 ['/'])).st).length + 1
      ≤ MSH_EXS_BUFSIZE :=
  ⟨Reachable.dispatch os_child_exits_2 [['l', 's']] _ (Reachable.startup 100 ['/']),
   by decide,
   (reachable_exit_status_fits _
    (Reachable.dispatch os_child_exits_2 [['l', 's']] _
      (Reachable.startup 100 ['/']))).2.2.2⟩

/-- Every state `msh_loop` passes through or ends in is reachable. -/
theorem msh_loop_reachable (inputs : List (OS × CStr)) :
    ∀ s, Reachable s → Reachable (msh_loop inputs s) := by
  induction inputs with
  | nil => intro s h; exact h
  | cons x rest ih =>
    intro s h
    obtain ⟨os, line⟩ := x
    have hr := Reachable.dispatch os (split_args s line) s h
    simp only [msh_loop]
    split
    · split
      · exact ih _ hr
      · exact hr
    · exact hr

/-! ## The builtin `cd` -/

/-- With two or more arguments `msh_cd` reports the error and sets
`exit_status` to EXIT_FAILURE, and then goes on to the `chdir` call with the
unassigned `path`: the call is made, and when it succeeds the working directory
changes and `exit_status` is set to EXIT_SUCCESS. -/
theorem msh_cd_too_many_args (os : OS) (a0 a1 a2 : CStr) (rest : List CStr) (s : Shell) :
    msh_cd os (a0 :: a1 :: a2 :: rest) s =
      match os.chdir s.cwd os.path_indeterminate with
      | none =>
        { st := { s with
                  exit_status := EXIT_FAILURE,
                  trace := s.trace ++ [Event.stderr "msh: too many arguments to \"cd\"\n",
                    Event.chdir os.path_indeterminate, Event.perror "msh"] },
          ret := some 1 }
      | some dir =>
        { st := { s with
                  exit_status := EXIT_SUCCESS, cwd := dir,
                  trace := s.trace ++ [Event.stderr "msh: too many arguments to \"cd\"\n",
                    Event.chdir os.path_indeterminate] },
          ret := some 1 } := by
  simp only [msh_cd, List.get?, Shell.emit]
  cases os.chdir s.cwd os.path_indeterminate <;> simp

/-- With no or one argument, when `chdir` fails, `msh_cd` reports through
`perror` and returns 1; `exit_status` and the working directory are left as
they were. -/
theorem msh_cd_chdir_fails (os : OS) (a0 : CStr) (rest : List CStr) (s : Shell)
    (hlen : rest.length ≤ 1)
    (hfail : os.chdir s.cwd (match rest with | [] => os.home | a1 :: _ => some a1) = none) :
    msh_cd os (a0 :: rest) s =
      { st := { s with
                trace := s.trace ++
                  [Event.chdir (match rest with | [] => os.home | a1 :: _ => some a1),
                   Event.perror "msh"] },
        ret := some 1 } := by
  match rest, hlen, hfail with
  | [], _, hfail =>
    simp only at hfail
    simp [msh_cd, List.get?, Shell.emit, hfail]
  | [a1], _, hfail =>
    simp only at hfail
    simp [msh_cd, List.get?, Shell.emit, hfail]

/-- C3: on `cd a b`, entered in the startup state with working directory `/`,
`msh_cd` reports the error and then calls `chdir` with the unassigned `path`;
when that call succeeds the working directory has changed and `exit_status`
is EXIT_SUCCESS on return. -/
theorem msh_cd_too_many_args_falls_through :
    msh_cd os_path_tmp [['c', 'd'], ['a'], ['b']] (startup 100 ['/']) =
      { st := { exit_status := EXIT_SUCCESS, msh_pid := 100, cwd := ['/', 't', 'm', 'p'],
                trace := [Event.stderr "msh: too many arguments to \"cd\"\n",
                          Event.chdir (some ['/', 't', 'm', 'p'])] },
        ret := some 1 } := by
  decide

/-- C4: on `cd /nonexistent`, entered in the startup state (`exit_status` 0)
with a `chdir` that fails, `msh_cd` returns 1 with the working directory
unchanged and `exit_status` still 0, that is EXIT_SUCCESS. -/
theorem msh_cd_failed_chdir_keeps_status :
    msh_cd os_refusing [['c', 'd'], "/nonexistent".toList] (startup 100 ['/']) =
      { st := { exit_status := EXIT_SUCCESS, msh_pid := 100, cwd := ['/'],
                trace := [Event.chdir (some "/nonexistent".toList), Event.perror "msh"] },
        ret := some 1 } := by
  decide

theorem msh_cd_chdir_fails_witness :
    msh_cd os_refusing [['c', 'd']] (startup 100 ['/']) =
      { st := { exit_status := 0, msh_pid := 100, cwd := ['/'],
                trace := [Event.chdir none, Event.perror "msh"] },
        ret := some 1 } :=
  msh_cd_chdir_fails os_refusing ['c', 'd'] [] (startup 100 ['/']) (by decide) rfl

end Msh
